import Mathlib

/-!
# Verification of the rspirv-cfg CFG extractor (`src/lib.rs`)

A shallow embedding of the repository's data model and operations:

* identifiers (`spirv::Word = u32`) are modelled as `Nat`;
* Rust `String` / `&str` values are modelled as `List Char`;
* fallible code paths (the `extract!` macro and `unwrap`/indexing panics)
  are modelled by `Option`, where `none` stands for a panic;
* `usize` arithmetic uses `Nat` with explicit wrap-around `% 2^64` where
  overflow matters (release-profile semantics); an overflow-checked
  (debug-profile) variant is given separately where the distinction matters.

Definitions are translated from `src/lib.rs`; line references are given in
the doc comments.
-/

/-- Width modulus of `usize` on the 64-bit targets the crate builds for. -/
def USIZE : Nat := 2 ^ 64

/-- The opcodes `src/lib.rs` inspects (`inst.class.opcode`); every other
opcode is `other` with its raw code. -/
inductive Op where
  | Branch
  | BranchConditional
  | Switch
  | SelectionMerge
  | OpName
  | other (code : Nat)
deriving DecidableEq

/-- `rspirv::dr::Operand`, restricted to the constructors `lib.rs` touches;
any further constructor is `otherOp`, carrying the text its
`disassemble()` would produce (only used for display). -/
inductive Operand where
  | IdRef (id : Nat)
  | LiteralInt32 (v : Nat)
  | LiteralString (s : List Char)
  | otherOp (disasm : List Char)
deriving DecidableEq

/-- `rspirv::dr::Instruction`: opcode (`inst.class.opcode`), the opcode name
(`inst.class.opname`), optional result id / result type, operand list. -/
structure Instruction where
  opcode : Op
  opname : List Char
  result_id : Option Nat
  result_type : Option Nat
  operands : List Operand
deriving DecidableEq

/-- `rspirv::dr::Block`: an optional label instruction and the instruction
list (the label is not part of `instructions`). -/
structure Block where
  label : Option Instruction
  instructions : List Instruction
deriving DecidableEq

/-- `rspirv::dr::Function`: the `OpFunction` instruction (`f.def`) and the
basic blocks, in document order. -/
structure Function where
  fdef : Option Instruction
  blocks : List Block
deriving DecidableEq

/-- `extract!(operand, Operand::IdRef)`: `none` models the panic on a
shape mismatch. -/
def extractIdRef : Operand → Option Nat
  | .IdRef id => some id
  | _ => none

/-- `extract!(operand, Operand::LiteralInt32)`. -/
def extractLitInt : Operand → Option Nat
  | .LiteralInt32 v => some v
  | _ => none

/-- `extract!(operand, Operand::LiteralString)`. -/
def extractLitString : Operand → Option (List Char)
  | .LiteralString s => some s
  | _ => none

/-- `iter().step_by(2)`: keep every second element starting with the
first. -/
def stepBy2 {α : Type} : List α → List α
  | [] => []
  | [a] => [a]
  | a :: _ :: rest => a :: stepBy2 rest

/-- Map a panicking extractor over a list (`none` models the first
panic). -/
def mapOpt {α β : Type} (f : α → Option β) : List α → Option (List β)
  | [] => some []
  | a :: rest => (f a).bind fun b => (mapOpt f rest).bind fun bs => some (b :: bs)

/-- `Terminator` (`lib.rs` lines 125-141). -/
inductive Terminator where
  | Branch (target : Nat)
  | BranchConditional (merge_block : Option Nat) (true_block : Nat) (false_block : Nat)
  | Switch (merge_block : Option Nat) (values : List Nat) (targets : List Nat)
  | End
deriving DecidableEq

/-- `Terminator::merge_block` (lines 144-150). -/
def Terminator.merge_block : Terminator → Option Nat
  | .Switch m _ _ => m
  | .BranchConditional m _ _ => m
  | _ => none

/-- The `get_merge_block` closure (lines 152-160), release-profile
semantics: the `usize` subtraction `bb.instructions.len() - 2` wraps
modulo `2^64`, so for a list of fewer than two instructions the index is
huge and `.get(..)` yields `None` (no merge target).  The outer `Option`
layer models the `extract!` / indexing panics: `none` = panic,
`some none` = no merge target, `some (some id)` = merge target `id`. -/
def get_merge_block (bb : Block) : Option (Option Nat) :=
  let idx := (bb.instructions.length + USIZE - 2) % USIZE
  match bb.instructions.get? idx with
  | none => some none
  | some before_last =>
    match before_last.opcode with
    | .SelectionMerge =>
      match before_last.operands.get? 0 with
      | none => none
      | some o =>
        match extractIdRef o with
        | none => none
        | some id => some (some id)
    | _ => some none

/-- Checked `usize` subtraction: `none` models the overflow panic of
debug (overflow-checked) builds. -/
def checkedSub (a b : Nat) : Option Nat :=
  if b ≤ a then some (a - b) else none

/-- The `get_merge_block` closure (lines 152-160) under the
overflow-checked (debug-profile) semantics of `bb.instructions.len() - 2`:
when the block holds fewer than two instructions, the subtraction
underflows and the program panics (`none`). -/
def get_merge_block_checked (bb : Block) : Option (Option Nat) :=
  match checkedSub bb.instructions.length 2 with
  | none => none
  | some idx =>
    match bb.instructions.get? idx with
    | none => some none
    | some before_last =>
      match before_last.opcode with
      | .SelectionMerge =>
        match before_last.operands.get? 0 with
        | none => none
        | some o =>
          match extractIdRef o with
          | none => none
          | some id => some (some id)
      | _ => some none

/-- `Terminator::from_basic_block` (lines 151-206), release-profile
semantics (see `get_merge_block`).  `none` models a panic (an `extract!`
shape mismatch or operand-index panic). -/
def Terminator.from_basic_block (bb : Block) : Option Terminator :=
  match bb.instructions.getLast? with
  | none => some .End
  | some inst =>
    match inst.opcode with
    | .Switch =>
      (inst.operands.get? 1).bind fun o1 =>
      (extractIdRef o1).bind fun dflt =>
      (get_merge_block bb).bind fun m =>
      (mapOpt extractLitInt (stepBy2 (inst.operands.drop 2))).bind fun values =>
      (mapOpt extractIdRef (stepBy2 (inst.operands.drop 3))).bind fun targets =>
      some (.Switch m values (targets ++ [dflt]))
    | .BranchConditional =>
      (get_merge_block bb).bind fun m =>
      (inst.operands.get? 1).bind fun o1 =>
      (extractIdRef o1).bind fun tb =>
      (inst.operands.get? 2).bind fun o2 =>
      (extractIdRef o2).bind fun fb =>
      some (.BranchConditional m tb fb)
    | .Branch =>
      (inst.operands.get? 0).bind fun o0 =>
      (extractIdRef o0).bind fun tgt =>
      some (.Branch tgt)
    | _ => some .End

/-- `Terminator::successors` (lines 208-220). -/
def Terminator.successors : Terminator → List Nat
  | .Switch _ _ targets => targets
  | .Branch target => [target]
  | .BranchConditional _ tb fb => [tb, fb]
  | .End => []

/-- The operand list of a well-shaped `OpSwitch` with selector `sel`,
default target `dflt` and case pairs `pairs = [(v1,t1),...,(vN,tN)]`,
laid out as the SPIR-V document order `[selector, default, v1, t1, ...]`. -/
def mkSwitchOperands (sel : Operand) (dflt : Nat) (pairs : List (Nat × Nat)) : List Operand :=
  sel :: Operand.IdRef dflt ::
    pairs.flatMap (fun p => [Operand.LiteralInt32 p.1, Operand.IdRef p.2])

/-! ## The name table (`BTreeMap<u32, String>`) -/

/-- `BTreeMap` insertion, on the sorted association-list model of
`BTreeMap<u32, V>`: overwrite an equal key, otherwise keep keys sorted. -/
def bInsert {α : Type} (k : Nat) (v : α) : List (Nat × α) → List (Nat × α)
  | [] => [(k, v)]
  | (k', v') :: rest =>
    if k = k' then (k, v) :: rest
    else if k < k' then (k, v) :: (k', v') :: rest
    else (k', v') :: bInsert k v rest

/-- `BTreeMap::get`. -/
def bLookup {α : Type} (k : Nat) : List (Nat × α) → Option α
  | [] => none
  | (k', v) :: rest => if k = k' then some v else bLookup k rest

/-- `collect()` of an iterator of pairs into a `BTreeMap`: sequential
insertion in iteration order (later pairs overwrite earlier ones). -/
def bCollect {α : Type} (l : List (Nat × α)) : List (Nat × α) :=
  l.foldl (fun m p => bInsert p.1 p.2 m) []

/-- The `(id, name)` pairs read off the `OpName` debug instructions, in
document order (`SpirvModule::load`, lines 94-105).  The `filter_map`
skips non-`OpName` instructions; `none` models the `extract!` panic on a
malformed `OpName`. -/
def opNameBindings : List Instruction → Option (List (Nat × List Char))
  | [] => some []
  | inst :: rest =>
    match inst.opcode with
    | .OpName =>
      (inst.operands.get? 0).bind fun o0 =>
      (extractIdRef o0).bind fun id =>
      (inst.operands.get? 1).bind fun o1 =>
      (extractLitString o1).bind fun nm =>
      (opNameBindings rest).bind fun tail =>
      some ((id, nm) :: tail)
    | _ => opNameBindings rest

/-- `SpirvModule::load`'s name table: the `OpName` bindings collected into
a `BTreeMap` (lines 94-106). -/
def build_names (debugs : List Instruction) : Option (List (Nat × List Char)) :=
  (opNameBindings debugs).map bCollect

/-- `SpirvModule::name_or_id` (lines 63-71): `"<name>(%<id>)"` when the
name table binds `id`, else `"%<id>"`. -/
def name_or_id (names : List (Nat × List Char)) (id? : Option Nat) : Option (List Char) :=
  match id? with
  | none => none
  | some id =>
    some (match bLookup id names with
      | some nm => nm ++ ('(' :: '%' :: (Nat.repr id).data ++ [')'])
      | none => '%' :: (Nat.repr id).data)

/-- `SpirvModule::get_name_fn` (lines 72-75). -/
def get_name_fn (names : List (Nat × List Char)) (f : Function) : Option (List Char) :=
  match f.fdef with
  | none => none
  | some d =>
    match d.result_id with
    | none => none
    | some id => bLookup id names

/-! ## HTML escaping and instruction rendering -/

/-- One `str::replace` with a single-character pattern `c` and replacement
`r` (all four patterns in `escape_html` are single characters, for which
`replace` is exactly a character-wise flat map). -/
def charReplace (c : Char) (r : List Char) (s : List Char) : List Char :=
  s.flatMap (fun x => if x = c then r else [x])

/-- `escape_html` (lines 52-57): the four replacements applied in source
order. -/
def escape_html (s : List Char) : List Char :=
  charReplace '>' (('&' :: ('g' :: ('t' :: [';']))))
    (charReplace '<' (('&' :: ('l' :: ('t' :: [';']))))
      (charReplace '"' (('&' :: ('q' :: ('u' :: ('o' :: ('t' :: [';']))))))
        (charReplace '&' (('&' :: ('a' :: ('m' :: ('p' :: [';']))))) s)))

/-- Modelled from the spec: the per-character escape table
(`&`→`&amp;`, `"`→`&quot;`, `<`→`&lt;`, `>`→`&gt;`), to be compared with
the sequential-replacement `escape_html` of the source. -/
def escCharSpec (c : Char) : List Char :=
  if c = '&' then ('&' :: ('a' :: ('m' :: ('p' :: [';']))))
  else if c = '"' then ('&' :: ('q' :: ('u' :: ('o' :: ('t' :: [';'])))))
  else if c = '<' then ('&' :: ('l' :: ('t' :: [';'])))
  else if c = '>' then ('&' :: ('g' :: ('t' :: [';'])))
  else [c]

/-- `operand.disassemble()` for the operands that do not go through name
resolution (`disassemble_inststruction`, line 45): literal ints print in
decimal, literal strings print quoted, any other operand carries its
disassembly text. -/
def operandDisassemble : Operand → List Char
  | .IdRef id => '%' :: (Nat.repr id).data
  | .LiteralInt32 v => (Nat.repr v).data
  | .LiteralString s => '"' :: (s ++ ['"'])
  | .otherOp d => d

/-- The per-operand rendering of `disassemble_inststruction` (lines
40-49): identifier references resolve through the name table and are
HTML-escaped; everything else uses `operand.disassemble()`. -/
def renderOperand (names : List (Nat × List Char)) (op : Operand) : List Char :=
  match op with
  | .IdRef id => escape_html ((name_or_id names (some id)).getD [])
  | _ => operandDisassemble op

/-- `disassemble_inststruction` (lines 19-51): result-id prefix, opcode,
result type and operand renderings, with the name-resolved parts
HTML-escaped. -/
def disassemble_inststruction (names : List (Nat × List Char)) (inst : Instruction) : List Char :=
  (escape_html (((name_or_id names inst.result_id).map (fun nm => nm ++ (' ' :: ('=' :: [' '])))).getD []))
  ++ (('O' :: ['p']) ++ inst.opname)
  ++ (escape_html (((name_or_id names inst.result_type).map (fun nm => ' ' :: nm)).getD []))
  ++ (if inst.operands.isEmpty then [] else [' '])
  ++ (List.intercalate [' '] (inst.operands.map (renderOperand names)))

/-! ## The emitted per-block and per-function document pieces -/

/-- The opening text of the block-node header cell
(`add_fn_to_dot`, lines 257-262). -/
def blockHeaderOpen : List Char :=
  ("\t\t<tr><td align=\"center\" bgcolor=\"gray\" colspan=\"1\">").data

/-- The closing text of the block-node header cell. -/
def blockHeaderClose : List Char :=
  ("</td></tr>").data

/-- The block-node header row emitted for block `id` (`add_fn_to_dot`,
lines 253-262): the resolved display name, embedded *without*
`escape_html`, between the fixed cell markup. -/
def blockHeaderRow (names : List (Nat × List Char)) (id : Nat) : List Char :=
  blockHeaderOpen ++ ((name_or_id names (some id)).getD []) ++ blockHeaderClose

/-- The function-header node label (`add_fn_to_dot`, line 229):
the function's debug name, or the literal string `"Unknown"`. -/
def fnHeaderLabel (names : List (Nat × List Char)) (f : Function) : List Char :=
  (get_name_fn names f).getD (("Unknown").data)

/-- The single header-to-entry edge (`add_fn_to_dot`, lines 237-251):
`(fn_id, entry)` where `fn_id` is the function definition's result id and
`entry` the first block's label id; `none` models the `unwrap`/indexing
panics (no function definition, no blocks, unlabeled entry). -/
def fnHeaderEdge (f : Function) : Option (Nat × Nat) :=
  f.fdef.bind fun d =>
  d.result_id.bind fun fid =>
  f.blocks.head?.bind fun b =>
  b.label.bind fun lbl =>
  lbl.result_id.bind fun eid =>
  some (fid, eid)

/-- The list of header-sourced edges the emitter writes: exactly one when
the unwraps succeed (line 251 is executed once per function). -/
def fnHeaderEdgeList (f : Function) : List (Nat × Nat) :=
  match fnHeaderEdge f with
  | some e => [e]
  | none => []

/-! ## Remaining definitions: block index, traversal, specification-side
predicates, and concrete test fixtures -/

/-- The value a sequence of overwriting insertions leaves behind for a key:
the value of the last pair of the sequence with that key. -/
def lastBinding {α : Type} (l : List (Nat × α)) (k : Nat) : Option α :=
  (l.reverse.find? (fun p => p.1 == k)).map Prod.snd

/-- The key order invariant of the `BTreeMap` model: keys strictly
ascending. -/
def bKeysSorted {α : Type} (m : List (Nat × α)) : Prop :=
  List.Chain' (· < ·) (m.map Prod.fst)

/-- A block's identifier: the result id of its label
(`bb.label.as_ref()?` then `label.result_id`). -/
def blockId (bb : Block) : Option Nat :=
  bb.label.bind Instruction.result_id

/-- `PetSpirv::new` (lines 321-335): the per-function block index, a
`BTreeMap` collected from `(label id, block)` pairs; blocks without a
labeled id are skipped by the `filter_map`. -/
def block_map_of (blocks : List Block) : List (Nat × Block) :=
  bCollect (blocks.filterMap (fun bb => (blockId bb).map (fun id => (id, bb))))

/-- The id `PetSpirv::traverse` starts from (lines 297-299): the first
block's label id; `none` when there is no block or the `unwrap`s would
panic. -/
def entryIdOf (blocks : List Block) : Option Nat :=
  blocks.head?.bind blockId

/-- Result of a traversal run: the final visited set (as the insertion
list) and the visit sequence `(block id, terminator)` in call order;
`fatal` models a panic (`get_block` miss or classification panic),
`outOfFuel` marks exhaustion of the recursion bound. -/
inductive TravResult where
  | ok (visited : List Nat) (out : List (Nat × Terminator))
  | fatal
  | outOfFuel
deriving DecidableEq

mutual

/-- `PetSpirv::traverse_from` (lines 304-319): insert `root` into the
visited set, look the block up (panic when absent), classify it, call the
visitor with `(root, terminator)`, then walk the successor list.  The
`fuel` argument is only a recursion bound (the Rust recursion has none);
`traverse` supplies enough fuel for it never to run out, which is proved
below. -/
def traverse_from (bm : List (Nat × Block)) : Nat → List Nat → Nat → TravResult
  | 0, _, _ => .outOfFuel
  | fuel + 1, visited, root =>
    match bLookup root bm with
    | none => .fatal
    | some blk =>
      match Terminator.from_basic_block blk with
      | none => .fatal
      | some t =>
        match succLoop bm fuel (root :: visited) t.successors with
        | .ok v out => .ok v ((root, t) :: out)
        | r => r
termination_by structural fuel visited root => fuel

/-- The `for bb in terminator.successors()` loop of `traverse_from`
(lines 314-318): recurse into each successor not yet visited, threading
the visited set left to right. -/
def succLoop (bm : List (Nat × Block)) : Nat → List Nat → List Nat → TravResult
  | _, visited, [] => .ok visited []
  | 0, _, _ :: _ => .outOfFuel
  | fuel + 1, visited, s :: rest =>
    if s ∈ visited then succLoop bm fuel visited rest
    else
      match traverse_from bm fuel visited s with
      | .ok v out =>
        match succLoop bm fuel v rest with
        | .ok v2 out2 => .ok v2 (out ++ out2)
        | r => r
      | r => r
termination_by structural fuel visited l => fuel

end

/-- The successor count of a block's terminator (`0` when classification
panics); used only to size the recursion fuel. -/
def succCount (b : Block) : Nat :=
  match Terminator.from_basic_block b with
  | some t => t.successors.length
  | none => 0

/-- The largest successor count over the block index; used only to size
the recursion fuel. -/
def maxSuccLen (bm : List (Nat × Block)) : Nat :=
  bm.foldr (fun p acc => max (succCount p.2) acc) 0

/-- A recursion bound sufficient for a full depth-first walk (proved
below: `traverse` never returns `outOfFuel`). -/
def totalFuel (bm : List (Nat × Block)) : Nat :=
  1 + bm.length * (1 + maxSuccLen bm)

/-- `PetSpirv::traverse` (lines 295-302): start from the first block's
label id with an empty visited set; no blocks means no work. -/
def PetSpirv.traverse (bm : List (Nat × Block)) (blocks : List Block) : TravResult :=
  match blocks.head? with
  | none => .ok [] []
  | some b =>
    match b.label with
    | none => .fatal
    | some lbl =>
      match lbl.result_id with
      | none => .fatal
      | some id => traverse_from bm (totalFuel bm) [] id

/-- The number of block-index keys not yet visited; the decreasing
measure showing `totalFuel` suffices. -/
def freshCount (bm : List (Nat × Block)) (vis : List Nat) : Nat :=
  ((bm.map Prod.fst).toFinset \ vis.toFinset).card

/-- One control-flow edge of the block graph: `b` is a successor of the
terminator classified from `a`'s block. -/
def stepTo (bm : List (Nat × Block)) (a b : Nat) : Prop :=
  ∃ blk t, bLookup a bm = some blk ∧ Terminator.from_basic_block blk = some t ∧
    b ∈ t.successors

/-- Reachability by following successors transitively (reflexive). -/
def Reach (bm : List (Nat × Block)) (a b : Nat) : Prop :=
  Relation.ReflTransGen (stepTo bm) a b

/-- The order property asserted by the claim: a block is visited before
any of its successors (if the block at position `i` has the block at
position `j` among its successors, then `i < j`). -/
def visitsBeforeSuccessors (out : List (Nat × Terminator)) : Prop :=
  ∀ i j, ∀ (hi : i < out.length) (hj : j < out.length),
    (out.get ⟨j, hj⟩).1 ∈ (out.get ⟨i, hi⟩).2.successors → i < j

/-- The depth-first pre-order shape that does hold: every visited block
except the first is a successor of some earlier-visited block. -/
def dfsParent (out : List (Nat × Terminator)) : Prop :=
  ∀ i, ∀ (hi : i < out.length), 0 < i →
    ∃ q, q ∈ out.take i ∧ (out.get ⟨i, hi⟩).1 ∈ q.2.successors

/-- Loop form of `dfsParent`: every visited block is either one of the
pending successors `l` or a successor of an earlier-visited block. -/
def loopParent (l : List Nat) (out : List (Nat × Terminator)) : Prop :=
  ∀ i, ∀ (hi : i < out.length),
    (out.get ⟨i, hi⟩).1 ∈ l ∨ ∃ q, q ∈ out.take i ∧ (out.get ⟨i, hi⟩).1 ∈ q.2.successors

/-- Shared postcondition of a successful traversal step: how the visited
set and the visit sequence relate. -/
structure VisitInv (bm : List (Nat × Block)) (vis v : List Nat)
    (out : List (Nat × Terminator)) : Prop where
  mono : ∀ x, x ∈ vis → x ∈ v
  chr : ∀ x, x ∈ v ↔ (x ∈ vis ∨ x ∈ out.map Prod.fst)
  nodup : (out.map Prod.fst).Nodup
  fresh : ∀ x, x ∈ out.map Prod.fst → x ∉ vis
  pairing : ∀ p, p ∈ out →
    ∃ blk, bLookup p.1 bm = some blk ∧ Terminator.from_basic_block blk = some p.2
  closed : ∀ p, p ∈ out → ∀ s, s ∈ p.2.successors → s ∈ v

/-- Postcondition of a successful `traverse_from bm fuel vis root`. -/
structure TravP (bm : List (Nat × Block)) (vis : List Nat) (root : Nat)
    (v : List Nat) (out : List (Nat × Terminator)) : Prop where
  inv : VisitInv bm vis v out
  sound : ∀ x, x ∈ out.map Prod.fst → Reach bm root x
  headRoot : (out.map Prod.fst).head? = some root
  parent : dfsParent out

/-- Postcondition of a successful `succLoop bm fuel vis l`. -/
structure LoopQ (bm : List (Nat × Block)) (vis : List Nat) (l : List Nat)
    (v : List Nat) (out : List (Nat × Terminator)) : Prop where
  inv : VisitInv bm vis v out
  sound : ∀ x, x ∈ out.map Prod.fst → ∃ s, s ∈ l ∧ Reach bm s x
  doneIn : ∀ s, s ∈ l → s ∈ v
  parent : loopParent l out

/-! ### Concrete test fixtures (used by counterexamples and witnesses) -/

/-- Fixture: an instruction with just an opcode and operands. -/
def mkInst (op : Op) (ops : List Operand) : Instruction :=
  ⟨op, [], none, none, ops⟩

/-- Fixture: an `OpLabel` instruction carrying the block id. -/
def mkLabel (id : Nat) : Instruction :=
  ⟨.other 248, [], some id, none, []⟩

/-- Fixture: a labeled block. -/
def mkBlock (id : Nat) (insts : List Instruction) : Block :=
  ⟨some (mkLabel id), insts⟩

/-- Fixture: `OpBranch target`. -/
def brInst (t : Nat) : Instruction :=
  mkInst .Branch [.IdRef t]

/-- Fixture: `OpBranchConditional cond tTrue tFalse`. -/
def brCondInst (c t f : Nat) : Instruction :=
  mkInst .BranchConditional [.IdRef c, .IdRef t, .IdRef f]

/-- Fixture: `OpSelectionMerge m`. -/
def selMergeInst (m : Nat) : Instruction :=
  mkInst .SelectionMerge [.IdRef m]

/-- Fixture: the spec's own diamond scenario — entry 1 conditionally
branches to 2 or 3 (merge at 4), both branch to 4, 4 ends. -/
def diamondBlocks : List Block :=
  [mkBlock 1 [selMergeInst 4, brCondInst 9 2 3],
   mkBlock 2 [brInst 4],
   mkBlock 3 [brInst 4],
   mkBlock 4 []]

/-- Fixture: a straight-line two-block function. -/
def lineBlocks : List Block :=
  [mkBlock 1 [brInst 2], mkBlock 2 []]

/-- Fixture: a block whose conditional branch is its only instruction. -/
def bbCondOnly : Block :=
  ⟨some (mkLabel 10), [brCondInst 9 2 3]⟩

/-- Fixture: an if-without-else block — the merge target 4 is also the
false-branch successor. -/
def bbIfNoElse : Block :=
  ⟨some (mkLabel 20), [selMergeInst 4, brCondInst 9 2 4]⟩

/-- Fixture: same terminating instruction as `bbIfNoElse` but with no
merge marker before it. -/
def bbCondBare : Block :=
  ⟨some (mkLabel 21), [brCondInst 9 2 4]⟩

/-- Fixture: a three-case switch block with a merge marker. -/
def bbSwitch3 : Block :=
  ⟨some (mkLabel 30),
   [selMergeInst 8,
    mkInst .Switch (mkSwitchOperands (.IdRef 9) 7 [(10, 11), (12, 13), (14, 15)])]⟩

/-- Fixture: a name table binding id 7 to the name `a<b`. -/
def cxNames : List (Nat × List Char) :=
  [(7, ['a', '<', 'b'])]

/-- Fixture: a function whose definition has result id 5 and no debug
name. -/
def fnNoName : Function :=
  ⟨some ⟨.other 54, [], some 5, none, []⟩, [mkBlock 6 []]⟩

/-- Fixture: two `OpName` annotations binding id 5 twice. -/
def dbgDup : List Instruction :=
  [mkInst .OpName [.IdRef 5, .LiteralString ['a']],
   mkInst .OpName [.IdRef 5, .LiteralString ['b']]]

/-- Prefix test on character lists (used only to state counterexamples). -/
def prefixOfB : List Char → List Char → Bool
  | [], _ => true
  | _ :: _, [] => false
  | a :: n, b :: h => a == b && prefixOfB n h

/-- Substring test on character lists (used only to state
counterexamples). -/
def containsSub (n : List Char) : List Char → Bool
  | [] => prefixOfB n []
  | c :: t => prefixOfB n (c :: t) || containsSub n t

/-! ## Association-list map lemmas -/

theorem bLookup_bInsert_self {α : Type} (k : Nat) (v : α) (m : List (Nat × α)) :
    bLookup k (bInsert k v m) = some v := by
  induction m with
  | nil => simp [bInsert, bLookup]
  | cons p rest ih =>
    by_cases h : k = p.1
    · simp [bInsert, h, bLookup]
    · by_cases h2 : k < p.1 <;> simp [bInsert, h, h2, bLookup, ih]

theorem bLookup_bInsert_ne {α : Type} {k k' : Nat} (h : k ≠ k') (v : α) (m : List (Nat × α)) :
    bLookup k (bInsert k' v m) = bLookup k m := by
  induction m with
  | nil => simp [bInsert, bLookup, h]
  | cons p rest ih =>
    by_cases h1 : k' = p.1
    · subst h1; simp [bInsert, bLookup, h]
    · by_cases h2 : k' < p.1 <;> simp [bInsert, h1, h2, bLookup, h, ih]

theorem bLookup_foldl_bInsert {α : Type} (l : List (Nat × α)) (acc : List (Nat × α)) (k : Nat) :
    bLookup k (l.foldl (fun m p => bInsert p.1 p.2 m) acc)
      = (lastBinding l k).or (bLookup k acc) := by
  induction l generalizing acc with
  | nil => simp [lastBinding]
  | cons p rest ih =>
    simp only [List.foldl_cons, ih, lastBinding, List.reverse_cons, List.find?_append]
    cases hf : rest.reverse.find? (fun p => p.1 == k) with
    | some q => simp [Option.or]
    | none =>
      by_cases hk : p.1 = k
      · have hb : (p.1 == k) = true := by simp [hk]
        subst hk
        simp [List.find?, hb, Option.or, bLookup_bInsert_self]
      · have hb : (p.1 == k) = false := by simp [hk]
        have h2 : bLookup k (bInsert p.1 p.2 acc) = bLookup k acc :=
          bLookup_bInsert_ne (fun h => hk h.symm) p.2 acc
        simp [List.find?, hb, Option.or, h2]

theorem bLookup_bCollect {α : Type} (l : List (Nat × α)) (k : Nat) :
    bLookup k (bCollect l) = lastBinding l k := by
  have h := bLookup_foldl_bInsert l [] k
  simpa [bCollect, bLookup] using h

theorem mem_keys_bInsert {α : Type} {a k : Nat} {v : α} {m : List (Nat × α)} :
    a ∈ (bInsert k v m).map Prod.fst ↔ a = k ∨ a ∈ m.map Prod.fst := by
  induction m with
  | nil => simp [bInsert]
  | cons p rest ih =>
    by_cases h1 : k = p.1
    · simp [bInsert, h1]
    · by_cases h2 : k < p.1
      · simp [bInsert, h1, h2]
      · simp [bInsert, h1, h2, ih]; tauto

theorem bInsert_headKey {α : Type} (k : Nat) (v : α) (m : List (Nat × α)) :
    ((bInsert k v m).map Prod.fst).head? = some k ∨
      ((bInsert k v m).map Prod.fst).head? = (m.map Prod.fst).head? := by
  cases m with
  | nil => left; simp [bInsert]
  | cons p rest =>
    by_cases h1 : k = p.1
    · left; simp [bInsert, h1]
    · by_cases h2 : k < p.1
      · left; simp [bInsert, h1, h2]
      · right; simp [bInsert, h1, h2]

theorem bKeysSorted_bInsert {α : Type} (k : Nat) (v : α) {m : List (Nat × α)}
    (h : bKeysSorted m) : bKeysSorted (bInsert k v m) := by
  induction m with
  | nil => simp [bKeysSorted, bInsert]
  | cons p rest ih =>
    rw [bKeysSorted, List.map_cons, List.chain'_cons'] at h
    by_cases h1 : k = p.1
    · subst h1
      simpa [bKeysSorted, bInsert, List.chain'_cons'] using h
    · by_cases h2 : k < p.1
      · refine ?_
        simp only [bKeysSorted, bInsert, if_neg h1, if_pos h2, List.map_cons]
        rw [List.chain'_cons']
        constructor
        · intro y hy; simp at hy; omega
        · rw [List.chain'_cons']; exact h
      · have hlt : p.1 < k := by omega
        simp only [bKeysSorted, bInsert, if_neg h1, if_neg h2, List.map_cons]
        rw [List.chain'_cons']
        refine ⟨?_, ih h.2⟩
        intro y hy
        rcases bInsert_headKey k v rest with hh | hh
        · rw [hh] at hy; simp at hy; omega
        · rw [hh] at hy; exact h.1 y hy

theorem bKeysSorted_bCollect {α : Type} (l : List (Nat × α)) : bKeysSorted (bCollect l) := by
  suffices h : ∀ acc : List (Nat × α), bKeysSorted acc →
      bKeysSorted (l.foldl (fun m p => bInsert p.1 p.2 m) acc) by
    exact h [] (by simp [bKeysSorted])
  induction l with
  | nil => intro acc hacc; simpa using hacc
  | cons p rest ih => intro acc hacc; exact ih _ (bKeysSorted_bInsert p.1 p.2 hacc)

theorem bKeysSorted.nodupKeys {α : Type} {m : List (Nat × α)} (h : bKeysSorted m) :
    (m.map Prod.fst).Nodup := by
  have hp : (m.map Prod.fst).Pairwise (· < ·) := List.chain'_iff_pairwise.mp h
  exact hp.imp (fun hab => Nat.ne_of_lt hab)

theorem bLookup_eq_none_iff {α : Type} {k : Nat} {m : List (Nat × α)} :
    bLookup k m = none ↔ k ∉ m.map Prod.fst := by
  induction m with
  | nil => simp [bLookup]
  | cons p rest ih => by_cases h : k = p.1 <;> simp [bLookup, h, ih]

theorem length_bInsert_of_not_mem {α : Type} {k : Nat} (v : α) {m : List (Nat × α)}
    (h : k ∉ m.map Prod.fst) : (bInsert k v m).length = m.length + 1 := by
  induction m with
  | nil => simp [bInsert]
  | cons p rest ih =>
    simp only [List.map_cons, List.mem_cons] at h
    push_neg at h
    by_cases h2 : k < p.1
    · simp [bInsert, h.1, h2]
    · simp [bInsert, h.1, h2, ih h.2]

theorem length_bCollect_of_nodup {α : Type} (l : List (Nat × α))
    (h : (l.map Prod.fst).Nodup) : (bCollect l).length = l.length := by
  suffices hgen : ∀ acc : List (Nat × α), (∀ p ∈ l, p.1 ∉ acc.map Prod.fst) →
      (l.map Prod.fst).Nodup →
      (l.foldl (fun m p => bInsert p.1 p.2 m) acc).length = acc.length + l.length by
    simpa using hgen [] (by simp) h
  clear h
  induction l with
  | nil => intro acc _ _; simp
  | cons p rest ih =>
    intro acc hfresh hnd
    simp only [List.map_cons, List.nodup_cons] at hnd
    simp only [List.foldl_cons]
    have hlen : (bInsert p.1 p.2 acc).length = acc.length + 1 :=
      length_bInsert_of_not_mem p.2 (hfresh p (by simp))
    have := ih (bInsert p.1 p.2 acc)
      (by
        intro q hq
        rw [mem_keys_bInsert]
        push_neg
        constructor
        · intro hqp
          exact hnd.1 (hqp ▸ (List.mem_map_of_mem Prod.fst hq))
        · exact hfresh q (by simp [hq]))
      hnd.2
    simp only [List.length_cons]
    omega

theorem find?_keyEq_of_nodup {α : Type} {l : List (Nat × α)} {k : Nat} {v : α}
    (hnd : (l.map Prod.fst).Nodup) (hm : (k, v) ∈ l) :
    l.find? (fun p => p.1 == k) = some (k, v) := by
  induction l with
  | nil => simp at hm
  | cons p rest ih =>
    simp only [List.map_cons, List.nodup_cons] at hnd
    rcases List.mem_cons.mp hm with h | h
    · subst h; simp [List.find?]
    · have hk : k ∈ rest.map Prod.fst := List.mem_map_of_mem Prod.fst h
      have hne : (p.1 == k) = false := by
        simp only [beq_eq_false_iff_ne, ne_eq]
        intro he; exact hnd.1 (he ▸ hk)
      simp only [List.find?_cons, hne]
      exact ih hnd.2 h

theorem lastBinding_of_nodup {α : Type} {l : List (Nat × α)} {k : Nat} {v : α}
    (hnd : (l.map Prod.fst).Nodup) (hm : (k, v) ∈ l) : lastBinding l k = some v := by
  have hnd' : (l.reverse.map Prod.fst).Nodup := by
    rw [List.map_reverse]; exact List.nodup_reverse.mpr hnd
  have := find?_keyEq_of_nodup hnd' (List.mem_reverse.mpr hm)
  simp [lastBinding, this]

/-! ## Escaping lemmas -/

theorem escape_html_cons (c : Char) (s : List Char) :
    escape_html (c :: s) = escape_html [c] ++ escape_html s := by
  simp [escape_html, charReplace, List.flatMap_append]

theorem escape_html_single (c : Char) : escape_html [c] = escCharSpec c := by
  by_cases h1 : c = '&'
  · subst h1; decide
  · by_cases h2 : c = '"'
    · subst h2; decide
    · by_cases h3 : c = '<'
      · subst h3; decide
      · by_cases h4 : c = '>'
        · subst h4; decide
        · simp [escape_html, charReplace, escCharSpec, h1, h2, h3, h4]

theorem escape_html_eq_flatMap (s : List Char) : escape_html s = s.flatMap escCharSpec := by
  induction s with
  | nil => rfl
  | cons c s ih => rw [escape_html_cons, escape_html_single, ih, List.flatMap_cons]

theorem not_mem_escCharSpec (x c : Char) (hx : x = '<' ∨ x = '"' ∨ x = '>') :
    x ∉ escCharSpec c := by
  unfold escCharSpec
  split_ifs with h1 h2 h3 h4
  · rcases hx with rfl | rfl | rfl <;> decide
  · rcases hx with rfl | rfl | rfl <;> decide
  · rcases hx with rfl | rfl | rfl <;> decide
  · rcases hx with rfl | rfl | rfl <;> decide
  · simp only [List.mem_singleton]
    rcases hx with rfl | rfl | rfl
    · exact fun he => h3 he.symm
    · exact fun he => h2 he.symm
    · exact fun he => h4 he.symm

theorem not_mem_escape_html (x : Char) (s : List Char) (hx : x = '<' ∨ x = '"' ∨ x = '>') :
    x ∉ escape_html s := by
  rw [escape_html_eq_flatMap]
  intro hmem
  rcases List.mem_flatMap.mp hmem with ⟨c, _, hc⟩
  exact not_mem_escCharSpec x c hx hc

/-! ## Claim theorems: name resolution, name table, escaping, header,
block index -/

/-- **C6**: `resolve` (the source's `name_or_id`) returns
`"<name>(%<id>)"` when the name table binds the identifier and `"%<id>"`
when it does not. -/
theorem C6_resolve (names : List (Nat × List Char)) (id : Nat) :
    (∀ nm, bLookup id names = some nm →
      name_or_id names (some id) = some (nm ++ ('(' :: '%' :: (Nat.repr id).data ++ [')']))) ∧
    (bLookup id names = none →
      name_or_id names (some id) = some ('%' :: (Nat.repr id).data)) := by
  constructor
  · intro nm h; simp [name_or_id, h]
  · intro h; simp [name_or_id, h]

/-- Witness for **C6** at a concrete name table. -/
theorem C6_resolve_witness :
    name_or_id [(3, ['f', 'o', 'o'])] (some 3) =
      some (['f', 'o', 'o'] ++ ('(' :: '%' :: (Nat.repr 3).data ++ [')'])) ∧
    name_or_id [(3, ['f', 'o', 'o'])] (some 4) = some ('%' :: (Nat.repr 4).data) :=
  ⟨(C6_resolve [(3, ['f', 'o', 'o'])] 3).1 (['f', 'o', 'o']) (by decide),
   (C6_resolve [(3, ['f', 'o', 'o'])] 4).2 (by decide)⟩

/-- **C7**: the name table built from the debug instructions maps an
identifier to the name of its last `OpName` binding in document order
(last-write-wins). -/
theorem C7_last_write_wins (debugs : List Instruction) (l : List (Nat × List Char))
    (id : Nat) (nm : List Char)
    (hb : opNameBindings debugs = some l) (hl : lastBinding l id = some nm) :
    ∃ m, build_names debugs = some m ∧ bLookup id m = some nm := by
  refine ⟨bCollect l, ?_, ?_⟩
  · simp [build_names, hb]
  · rw [bLookup_bCollect]; exact hl

/-- Witness for **C7**: id 5 is bound twice; the second binding wins. -/
theorem C7_last_write_wins_witness :
    ∃ m, build_names dbgDup = some m ∧ bLookup 5 m = some ['b'] :=
  C7_last_write_wins dbgDup [(5, ['a']), (5, ['b'])] 5 (['b']) (by decide) (by decide)

/-- **C8 counterexample**: the block-node header row embeds the resolved
name without escaping — for the name `a<b` the emitted row contains the
raw `a<b`, not the escaped `a&lt;b` that `escape_html` would produce. -/
theorem C8_escape_counterexample :
    containsSub (['a', '<', 'b']) (blockHeaderRow cxNames 7) = true ∧
    containsSub (['a', '&', 'l', 't', ';', 'b']) (blockHeaderRow cxNames 7) = false ∧
    escape_html (['a', '<', 'b']) = ['a', '&', 'l', 't', ';', 'b'] :=
  ⟨by decide, by decide, by decide⟩

/-- **C8 amended**: `escape_html` realises exactly the claimed
per-character escape table (so its output is free of `<`, `"`, `>`), and
it is applied to every name-resolved part of the instruction renderings —
the result-id prefix, the result-type, and each identifier-reference
operand; the block-node header row and the function header label,
however, embed the resolved name without this escaping (witnessed by a
name containing `<` surviving raw in the header label). -/
theorem C8_escape_amended :
    (∀ s, escape_html s = s.flatMap escCharSpec) ∧
    (∀ s, ('<' ∉ escape_html s) ∧ ('"' ∉ escape_html s) ∧ ('>' ∉ escape_html s)) ∧
    (∀ names inst, disassemble_inststruction names inst =
      escape_html (((name_or_id names inst.result_id).map
          (fun nm => nm ++ (' ' :: ('=' :: [' '])))).getD [])
        ++ (('O' :: ['p']) ++ inst.opname)
        ++ escape_html (((name_or_id names inst.result_type).map
          (fun nm => ' ' :: nm)).getD [])
        ++ (if inst.operands.isEmpty then [] else [' '])
        ++ List.intercalate [' '] (inst.operands.map (renderOperand names))) ∧
    (∀ names id, renderOperand names (Operand.IdRef id) =
      escape_html ((name_or_id names (some id)).getD [])) ∧
    (∀ names id, blockHeaderRow names id =
      blockHeaderOpen ++ ((name_or_id names (some id)).getD []) ++ blockHeaderClose) ∧
    (∀ names f nm, get_name_fn names f = some nm → fnHeaderLabel names f = nm) ∧
    (fnHeaderLabel [(5, ['a', '<', 'b'])] fnNoName = ['a', '<', 'b'] ∧
      fnHeaderLabel [(5, ['a', '<', 'b'])] fnNoName ≠ escape_html (['a', '<', 'b'])) := by
  refine ⟨escape_html_eq_flatMap, ?_, fun _ _ => rfl, fun _ _ => rfl, fun _ _ => rfl,
    ?_, by decide, by decide⟩
  · intro s
    exact ⟨not_mem_escape_html _ s (Or.inl rfl), not_mem_escape_html _ s (Or.inr (Or.inl rfl)),
      not_mem_escape_html _ s (Or.inr (Or.inr rfl))⟩
  · intro names f nm h
    simp [fnHeaderLabel, h]

/-- Witness for **C8 amended**: the function-header-label conjunct
exercised at a concrete name table whose name contains `<`. -/
theorem C8_escape_amended_witness :
    fnHeaderLabel [(5, ['a', '<', 'b'])] fnNoName = ['a', '<', 'b'] :=
  C8_escape_amended.2.2.2.2.2.1 [(5, ['a', '<', 'b'])] fnNoName (['a', '<', 'b'])
    (by decide)

/-- **C9 counterexample**: a function with identifier 5 and no debug name
gets the header label `"Unknown"`, not its numeric identifier (neither
`5` nor `%5`). -/
theorem C9_header_counterexample :
    fnNoName.fdef.bind Instruction.result_id = some 5 ∧
    get_name_fn [] fnNoName = none ∧
    fnHeaderLabel [] fnNoName = ("Unknown").data ∧
    fnHeaderLabel [] fnNoName ≠ (Nat.repr 5).data ∧
    fnHeaderLabel [] fnNoName ≠ '%' :: (Nat.repr 5).data := by
  refine ⟨by decide, by decide, by decide, by decide, by decide⟩

/-- **C9 amended**: the header node label is the function's debug name
when one is bound and the fixed string `"Unknown"` otherwise, and exactly
one edge is emitted from the header node (the function's identifier) to
the entry block (the first block's label id). -/
theorem C9_header_amended (names : List (Nat × List Char)) (f : Function) :
    (∀ nm, get_name_fn names f = some nm → fnHeaderLabel names f = nm) ∧
    (get_name_fn names f = none → fnHeaderLabel names f = ("Unknown").data) ∧
    (∀ fid eid, fnHeaderEdge f = some (fid, eid) →
      fnHeaderEdgeList f = [(fid, eid)] ∧
      f.fdef.bind Instruction.result_id = some fid ∧
      f.blocks.head?.bind blockId = some eid) := by
  refine ⟨?_, ?_, ?_⟩
  · intro nm h; simp [fnHeaderLabel, h]
  · intro h; simp [fnHeaderLabel, h]
  · intro fid eid h
    refine ⟨by simp [fnHeaderEdgeList, h], ?_⟩
    rcases f with ⟨fdef, blocks⟩
    cases fdef with
    | none => simp [fnHeaderEdge] at h
    | some d =>
      cases hrid : d.result_id with
      | none => simp [fnHeaderEdge, hrid] at h
      | some fid2 =>
        cases hhead : blocks.head? with
        | none => simp [fnHeaderEdge, hrid, hhead] at h
        | some b =>
          cases hlbl : b.label with
          | none => simp [fnHeaderEdge, hrid, hhead, hlbl] at h
          | some lbl =>
            cases heid : lbl.result_id with
            | none => simp [fnHeaderEdge, hrid, hhead, hlbl, heid] at h
            | some eid2 =>
              simp only [fnHeaderEdge, hrid, hhead, hlbl, heid, Option.some_bind,
                Option.some.injEq, Prod.mk.injEq] at h
              obtain ⟨h1, h2⟩ := h
              subst h1; subst h2
              constructor
              · simp [hrid]
              · simp [hhead, blockId, hlbl, heid]

/-- Witness for **C9 amended** at a concrete named function. -/
theorem C9_header_amended_witness :
    fnHeaderLabel [(5, ['m'])] fnNoName = ['m'] ∧ fnHeaderEdgeList fnNoName = [(5, 6)] :=
  ⟨(C9_header_amended [(5, ['m'])] fnNoName).1 (['m']) (by decide),
   ((C9_header_amended [(5, ['m'])] fnNoName).2.2 5 6 (by decide)).1⟩

theorem keys_blockPairs (blocks : List Block) :
    ((blocks.filterMap (fun bb => (blockId bb).map (fun id => (id, bb)))).map Prod.fst)
      = blocks.filterMap blockId := by
  induction blocks with
  | nil => rfl
  | cons b bs ih => cases h : blockId b <;> simp [h, ih]

theorem length_blockPairs (blocks : List Block)
    (hlab : ∀ bb ∈ blocks, (blockId bb).isSome) :
    (blocks.filterMap (fun bb => (blockId bb).map (fun id => (id, bb)))).length
      = blocks.length := by
  induction blocks with
  | nil => rfl
  | cons b bs ih =>
    have hb := hlab b (by simp)
    cases h : blockId b with
    | none => rw [h] at hb; simp at hb
    | some id => simp [h, ih (fun bb hbb => hlab bb (by simp [hbb]))]

/-- **C10**: for a function whose blocks all carry labeled identifiers,
pairwise distinct, the block index has unique keys and exactly one entry
per block, mapping each block's identifier to that block. -/
theorem C10_block_index (blocks : List Block)
    (hlab : ∀ bb ∈ blocks, (blockId bb).isSome)
    (hnd : (blocks.filterMap blockId).Nodup) :
    (block_map_of blocks).length = blocks.length ∧
    ((block_map_of blocks).map Prod.fst).Nodup ∧
    (∀ bb ∈ blocks, ∀ id, blockId bb = some id →
      bLookup id (block_map_of blocks) = some bb) := by
  have hkeys := keys_blockPairs blocks
  refine ⟨?_, (bKeysSorted_bCollect _).nodupKeys, ?_⟩
  · rw [block_map_of,
      length_bCollect_of_nodup _ (by rw [hkeys]; exact hnd),
      length_blockPairs blocks hlab]
  · intro bb hbb id hid
    have hmem : (id, bb) ∈
        blocks.filterMap (fun bb => (blockId bb).map (fun id => (id, bb))) :=
      List.mem_filterMap.mpr ⟨bb, hbb, by simp [hid]⟩
    rw [block_map_of, bLookup_bCollect]
    exact lastBinding_of_nodup (by rw [hkeys]; exact hnd) hmem

/-- Witness for **C10** on a concrete two-block function. -/
theorem C10_block_index_witness :
    (block_map_of lineBlocks).length = lineBlocks.length ∧
    ((block_map_of lineBlocks).map Prod.fst).Nodup ∧
    (∀ bb ∈ lineBlocks, ∀ id, blockId bb = some id →
      bLookup id (block_map_of lineBlocks) = some bb) :=
  C10_block_index lineBlocks (by decide) (by decide)

/-! ## Switch classification lemmas -/

theorem stepBy2_pair {α β : Type} (f g : α → β) (l : List α) :
    stepBy2 (l.flatMap (fun p => [f p, g p])) = l.map f := by
  induction l with
  | nil => rfl
  | cons p r ih =>
    show stepBy2 (f p :: g p :: (r.flatMap fun p => [f p, g p])) = List.map f (p :: r)
    simp only [stepBy2]
    rw [ih, List.map_cons]

theorem stepBy2_cons_pair {α β : Type} (f g : α → β) (q : β) (l : List α) :
    stepBy2 (q :: l.flatMap (fun p => [f p, g p])) = q :: l.map g := by
  induction l generalizing q with
  | nil => rfl
  | cons p r ih =>
    show stepBy2 (q :: f p :: (g p :: r.flatMap fun p => [f p, g p])) = q :: List.map g (p :: r)
    simp only [stepBy2]
    rw [ih, List.map_cons]

theorem stepBy2_drop1_pair {α β : Type} (f g : α → β) (l : List α) :
    stepBy2 ((l.flatMap (fun p => [f p, g p])).drop 1) = l.map g := by
  cases l with
  | nil => rfl
  | cons p r =>
    show stepBy2 (g p :: r.flatMap fun p => [f p, g p]) = List.map g (p :: r)
    rw [stepBy2_cons_pair, List.map_cons]

theorem mapOpt_extractLitInt_pairs (pairs : List (Nat × Nat)) :
    mapOpt extractLitInt (pairs.map fun p => Operand.LiteralInt32 p.1)
      = some (pairs.map Prod.fst) := by
  induction pairs with
  | nil => rfl
  | cons p r ih => simp [mapOpt, extractLitInt, ih]

theorem mapOpt_extractIdRef_pairs (pairs : List (Nat × Nat)) :
    mapOpt extractIdRef (pairs.map fun p => Operand.IdRef p.2)
      = some (pairs.map Prod.snd) := by
  induction pairs with
  | nil => rfl
  | cons p r ih => simp [mapOpt, extractIdRef, ih]

theorem from_basic_block_switch (bb : Block) (i : Instruction) (sel : Operand)
    (dflt : Nat) (pairs : List (Nat × Nat)) (hl : bb.instructions.getLast? = some i)
    (hop : i.opcode = Op.Switch) (hops : i.operands = mkSwitchOperands sel dflt pairs) :
    Terminator.from_basic_block bb =
      (get_merge_block bb).bind
        (fun m => some (Terminator.Switch m (pairs.map Prod.fst)
          (pairs.map Prod.snd ++ [dflt]))) := by
  simp only [Terminator.from_basic_block, hl, hop, hops, mkSwitchOperands]
  rw [List.get?_cons_succ, List.get?_cons_zero]
  simp only [List.drop_succ_cons, List.drop_zero, extractIdRef, Option.some_bind]
  rw [stepBy2_pair (fun p => Operand.LiteralInt32 p.1) (fun p => Operand.IdRef p.2) pairs,
    stepBy2_drop1_pair (fun p => Operand.LiteralInt32 p.1) (fun p => Operand.IdRef p.2) pairs,
    mapOpt_extractLitInt_pairs, mapOpt_extractIdRef_pairs]
  simp only [Option.some_bind]

/-! ## Claim theorems: terminator classification -/

/-- **C2**: `successors()` is, in order, `[target]` for `Branch`,
`[true_target, false_target]` for `BranchConditional`, the target list
(the ordered case targets followed by the default) for `Switch`, and
empty for `End`; for a classified N-case switch its length is N+1. -/
theorem C2_successors_arity (bb : Block) (t : Terminator)
    (h : Terminator.from_basic_block bb = some t) :
    ((∀ a, t = Terminator.Branch a → t.successors = [a]) ∧
     (∀ m a b, t = Terminator.BranchConditional m a b → t.successors = [a, b]) ∧
     (∀ m vs ts, t = Terminator.Switch m vs ts → t.successors = ts) ∧
     (t = Terminator.End → t.successors = [])) ∧
    (∀ i sel dflt pairs, bb.instructions.getLast? = some i → i.opcode = Op.Switch →
      i.operands = mkSwitchOperands sel dflt pairs →
      t.successors = pairs.map Prod.snd ++ [dflt] ∧
      t.successors.length = pairs.length + 1) := by
  constructor
  · refine ⟨?_, ?_, ?_, ?_⟩
    · intro a ha; subst ha; rfl
    · intro m a b hb; subst hb; rfl
    · intro m vs ts hs; subst hs; rfl
    · intro he; subst he; rfl
  · intro i sel dflt pairs hl hop hops
    rw [from_basic_block_switch bb i sel dflt pairs hl hop hops] at h
    rcases Option.bind_eq_some.mp h with ⟨m, _, hfin⟩
    simp only [Option.some.injEq] at hfin
    subst hfin
    exact ⟨rfl, by simp [Terminator.successors]⟩

/-- Witness for **C2** on a concrete three-case switch block. -/
theorem C2_successors_arity_witness :
    (Terminator.Switch (some 8) [10, 12, 14] [11, 13, 15, 7]).successors
      = [(10, 11), (12, 13), (14, 15)].map Prod.snd ++ [7] ∧
    (Terminator.Switch (some 8) [10, 12, 14] [11, 13, 15, 7]).successors.length
      = [(10, 11), (12, 13), (14, 15)].length + 1 :=
  (C2_successors_arity bbSwitch3
      (Terminator.Switch (some 8) [10, 12, 14] [11, 13, 15, 7]) (by decide)).2
    (mkInst .Switch (mkSwitchOperands (.IdRef 9) 7 [(10, 11), (12, 13), (14, 15)]))
    (.IdRef 9) 7 [(10, 11), (12, 13), (14, 15)] (by decide) (by decide) (by decide)

/-- **C3**: classifying a block whose last instruction is an `OpSwitch`
with operands `[selector, default, v1, t1, ..., vN, tN]` yields a
`Switch` whose value list is `[v1, ..., vN]` in document order and whose
target list is `[t1, ..., tN, default]`, the default appended last. -/
theorem C3_switch_classification (bb : Block) (i : Instruction) (sel : Operand)
    (dflt : Nat) (pairs : List (Nat × Nat)) (m : Option Nat)
    (hl : bb.instructions.getLast? = some i) (hop : i.opcode = Op.Switch)
    (hops : i.operands = mkSwitchOperands sel dflt pairs)
    (hm : get_merge_block bb = some m) :
    Terminator.from_basic_block bb =
      some (Terminator.Switch m (pairs.map Prod.fst) (pairs.map Prod.snd ++ [dflt])) := by
  rw [from_basic_block_switch bb i sel dflt pairs hl hop hops, hm, Option.some_bind]

/-- Witness for **C3** on a concrete three-case switch block. -/
theorem C3_switch_classification_witness :
    Terminator.from_basic_block bbSwitch3 =
      some (Terminator.Switch (some 8) ([(10, 11), (12, 13), (14, 15)].map Prod.fst)
        ([(10, 11), (12, 13), (14, 15)].map Prod.snd ++ [7])) :=
  C3_switch_classification bbSwitch3
    (mkInst .Switch (mkSwitchOperands (.IdRef 9) 7 [(10, 11), (12, 13), (14, 15)]))
    (.IdRef 9) 7 [(10, 11), (12, 13), (14, 15)] (some 8)
    (by decide) (by decide) (by decide) (by decide)

/-- **C4 (code bug)**: for a block whose conditional branch is its only
instruction, the merge-detection index `bb.instructions.len() - 2`
underflows: under overflow-checked (debug-profile) semantics the program
panics (`none`), contradicting the claim that classification never
fails; under release (wrapping) semantics the huge index misses and the
classification succeeds with no merge target, as the claim describes. -/
theorem C4_merge_underflow :
    get_merge_block_checked bbCondOnly = none ∧
    get_merge_block bbCondOnly = some none ∧
    Terminator.from_basic_block bbCondOnly = some (Terminator.BranchConditional none 2 3) :=
  ⟨by decide, by decide, by decide⟩

/-- **C5 counterexample**: an if-without-else block — the detected merge
target 4 *is* among the successors `[2, 4]`, so the merge-target set and
the successor set are not disjoint. -/
theorem C5_disjoint_counterexample :
    Terminator.from_basic_block bbIfNoElse =
      some (Terminator.BranchConditional (some 4) 2 4) ∧
    (Terminator.BranchConditional (some 4) 2 4).merge_block = some 4 ∧
    4 ∈ (Terminator.BranchConditional (some 4) 2 4).successors :=
  ⟨by decide, by decide, by decide⟩

/-- **C5 amended**: the merge target is exposed only through the separate
`merge_block` accessor and is never added to `successors()`:
`successors()` depends only on the terminating instruction (it is
unchanged by the presence or content of a preceding merge marker), though
the merge target may coincide with a genuine successor. -/
theorem C5_merge_separate_amended (bb₁ bb₂ : Block) (t₁ t₂ : Terminator)
    (hl : bb₁.instructions.getLast? = bb₂.instructions.getLast?)
    (h₁ : Terminator.from_basic_block bb₁ = some t₁)
    (h₂ : Terminator.from_basic_block bb₂ = some t₂) :
    t₁.successors = t₂.successors := by
  simp only [Terminator.from_basic_block, hl] at h₁ h₂
  cases hg : bb₂.instructions.getLast? with
  | none =>
    rw [hg] at h₁ h₂
    simp only [Option.some.injEq] at h₁ h₂
    subst h₁; subst h₂; rfl
  | some inst =>
    rw [hg] at h₁ h₂
    cases hop : inst.opcode with
    | Switch =>
      simp only [hop] at h₁ h₂
      rcases Option.bind_eq_some.mp h₁ with ⟨o1, ho1, h₁⟩
      rcases Option.bind_eq_some.mp h₁ with ⟨dflt, hdflt, h₁⟩
      rcases Option.bind_eq_some.mp h₁ with ⟨m1, _, h₁⟩
      rcases Option.bind_eq_some.mp h₁ with ⟨vs1, hvs1, h₁⟩
      rcases Option.bind_eq_some.mp h₁ with ⟨ts1, hts1, h₁⟩
      rcases Option.bind_eq_some.mp h₂ with ⟨o2, ho2, h₂⟩
      rcases Option.bind_eq_some.mp h₂ with ⟨dflt2, hdflt2, h₂⟩
      rcases Option.bind_eq_some.mp h₂ with ⟨m2, _, h₂⟩
      rcases Option.bind_eq_some.mp h₂ with ⟨vs2, hvs2, h₂⟩
      rcases Option.bind_eq_some.mp h₂ with ⟨ts2, hts2, h₂⟩
      rw [ho1] at ho2
      cases ho2
      rw [hdflt] at hdflt2
      cases hdflt2
      rw [hvs1] at hvs2
      cases hvs2
      rw [hts1] at hts2
      cases hts2
      simp only [Option.some.injEq] at h₁ h₂
      subst h₁; subst h₂; rfl
    | BranchConditional =>
      simp only [hop] at h₁ h₂
      rcases Option.bind_eq_some.mp h₁ with ⟨m1, _, h₁⟩
      rcases Option.bind_eq_some.mp h₁ with ⟨o1, ho1, h₁⟩
      rcases Option.bind_eq_some.mp h₁ with ⟨tb1, htb1, h₁⟩
      rcases Option.bind_eq_some.mp h₁ with ⟨o2, ho2, h₁⟩
      rcases Option.bind_eq_some.mp h₁ with ⟨fb1, hfb1, h₁⟩
      rcases Option.bind_eq_some.mp h₂ with ⟨m2, _, h₂⟩
      rcases Option.bind_eq_some.mp h₂ with ⟨o1b, ho1b, h₂⟩
      rcases Option.bind_eq_some.mp h₂ with ⟨tb2, htb2, h₂⟩
      rcases Option.bind_eq_some.mp h₂ with ⟨o2b, ho2b, h₂⟩
      rcases Option.bind_eq_some.mp h₂ with ⟨fb2, hfb2, h₂⟩
      rw [ho1] at ho1b
      cases ho1b
      rw [htb1] at htb2
      cases htb2
      rw [ho2] at ho2b
      cases ho2b
      rw [hfb1] at hfb2
      cases hfb2
      simp only [Option.some.injEq] at h₁ h₂
      subst h₁; subst h₂; rfl
    | Branch =>
      simp only [hop] at h₁ h₂
      rw [h₁] at h₂
      simp only [Option.some.injEq] at h₂
      subst h₂; rfl
    | SelectionMerge =>
      simp only [hop, Option.some.injEq] at h₁ h₂
      subst h₁; subst h₂; rfl
    | OpName =>
      simp only [hop, Option.some.injEq] at h₁ h₂
      subst h₁; subst h₂; rfl
    | other code =>
      simp only [hop, Option.some.injEq] at h₁ h₂
      subst h₁; subst h₂; rfl

/-- Witness for **C5 amended**: the same conditional branch with and
without a preceding merge marker yields the same successors. -/
theorem C5_merge_separate_amended_witness :
    (Terminator.BranchConditional (some 4) 2 4).successors =
      (Terminator.BranchConditional none 2 4).successors :=
  C5_merge_separate_amended bbIfNoElse bbCondBare
    (Terminator.BranchConditional (some 4) 2 4) (Terminator.BranchConditional none 2 4)
    (by decide) (by decide) (by decide)

/-! ## Traversal lemmas -/

theorem succLoop_nil (bm : List (Nat × Block)) (fuel : Nat) (vis : List Nat) :
    succLoop bm fuel vis [] = .ok vis [] := by
  cases fuel <;> rfl

theorem bLookup_mem {α : Type} {k : Nat} {m : List (Nat × α)} {v : α}
    (h : bLookup k m = some v) : (k, v) ∈ m := by
  induction m with
  | nil => simp [bLookup] at h
  | cons p rest ih =>
    by_cases hk : k = p.1
    · simp only [bLookup, if_pos hk] at h
      simp only [Option.some.injEq] at h
      have hp : (k, v) = p := by cases p; simp_all
      rw [hp]
      exact List.mem_cons_self _ _
    · simp only [bLookup, if_neg hk] at h
      exact List.mem_cons_of_mem _ (ih h)

theorem bLookup_mem_keys {α : Type} {k : Nat} {m : List (Nat × α)} {v : α}
    (h : bLookup k m = some v) : k ∈ m.map Prod.fst := by
  by_contra hn
  rw [← bLookup_eq_none_iff] at hn
  rw [h] at hn
  exact Option.noConfusion hn

theorem succCount_le_max (bm : List (Nat × Block)) {k : Nat} {blk : Block}
    (h : (k, blk) ∈ bm) : succCount blk ≤ maxSuccLen bm := by
  induction bm with
  | nil => simp at h
  | cons q rest ih =>
    rcases List.mem_cons.mp h with he | hm
    · have : blk = q.2 := by rw [← he]
      rw [this, maxSuccLen, List.foldr_cons]
      exact le_max_left _ _
    · calc succCount blk ≤ maxSuccLen rest := ih hm
        _ ≤ max (succCount q.2) (maxSuccLen rest) := le_max_right _ _

theorem successors_le_max (bm : List (Nat × Block)) {k : Nat} {blk : Block} {t : Terminator}
    (hlk : bLookup k bm = some blk) (hcl : Terminator.from_basic_block blk = some t) :
    t.successors.length ≤ maxSuccLen bm := by
  have h1 : succCount blk = t.successors.length := by rw [succCount, hcl]
  rw [← h1]
  exact succCount_le_max bm (bLookup_mem hlk)

theorem freshCount_mono (bm : List (Nat × Block)) {vis v : List Nat}
    (hsub : ∀ x, x ∈ vis → x ∈ v) : freshCount bm v ≤ freshCount bm vis := by
  apply Finset.card_le_card
  apply Finset.sdiff_subset_sdiff (le_refl _)
  intro x hx
  rw [List.mem_toFinset] at hx ⊢
  exact hsub x hx

theorem freshCount_pos (bm : List (Nat × Block)) {vis : List Nat} {root : Nat}
    (hin : root ∈ bm.map Prod.fst) (hnot : root ∉ vis) : 1 ≤ freshCount bm vis := by
  apply Finset.card_pos.mpr
  exact ⟨root, by simp [Finset.mem_sdiff, List.mem_toFinset, hin, hnot]⟩

theorem freshCount_cons_lt (bm : List (Nat × Block)) {vis : List Nat} {root : Nat}
    (hin : root ∈ bm.map Prod.fst) (hnot : root ∉ vis) :
    freshCount bm (root :: vis) < freshCount bm vis := by
  have hmem : root ∈ (bm.map Prod.fst).toFinset \ vis.toFinset := by
    simp [Finset.mem_sdiff, List.mem_toFinset, hin, hnot]
  have hsub : (bm.map Prod.fst).toFinset \ (root :: vis).toFinset ⊆
      ((bm.map Prod.fst).toFinset \ vis.toFinset).erase root := by
    intro x hx
    simp only [Finset.mem_sdiff, Finset.mem_erase, List.mem_toFinset, List.mem_cons] at hx ⊢
    tauto
  calc freshCount bm (root :: vis)
      ≤ (((bm.map Prod.fst).toFinset \ vis.toFinset).erase root).card :=
        Finset.card_le_card hsub
    _ < freshCount bm vis := Finset.card_erase_lt_of_mem hmem

theorem freshCount_nil_le (bm : List (Nat × Block)) : freshCount bm [] ≤ bm.length := by
  calc freshCount bm []
      ≤ ((bm.map Prod.fst).toFinset).card := Finset.card_le_card (Finset.sdiff_subset)
    _ ≤ (bm.map Prod.fst).length := List.toFinset_card_le _
    _ = bm.length := List.length_map _ _

theorem loopQ_nil (bm : List (Nat × Block)) (vis : List Nat) : LoopQ bm vis [] vis [] := by
  refine ⟨⟨?_, ?_, ?_, ?_, ?_, ?_⟩, ?_, ?_, ?_⟩
  · exact fun x h => h
  · intro x; simp
  · simp
  · simp
  · simp
  · simp
  · simp
  · simp
  · intro i hi; simp at hi

theorem loopQ_skip {bm : List (Nat × Block)} {vis : List Nat} {s : Nat} {rest : List Nat}
    {v : List Nat} {out : List (Nat × Terminator)}
    (hs : s ∈ vis) (hq : LoopQ bm vis rest v out) : LoopQ bm vis (s :: rest) v out := by
  refine ⟨hq.inv, ?_, ?_, ?_⟩
  · intro x hx
    obtain ⟨t, ht, hr⟩ := hq.sound x hx
    exact ⟨t, List.mem_cons_of_mem _ ht, hr⟩
  · intro u hu
    rcases List.mem_cons.mp hu with rfl | hm
    · exact hq.inv.mono u hs
    · exact hq.doneIn u hm
  · intro i hi
    rcases hq.parent i hi with hin | hex
    · exact Or.inl (List.mem_cons_of_mem _ hin)
    · exact Or.inr hex

theorem travP_step {bm : List (Nat × Block)} {vis : List Nat} {root : Nat} {blk : Block}
    {t : Terminator} {v : List Nat} {out : List (Nat × Terminator)}
    (hroot : root ∉ vis) (hlk : bLookup root bm = some blk)
    (hcl : Terminator.from_basic_block blk = some t)
    (hq : LoopQ bm (root :: vis) t.successors v out) :
    TravP bm vis root v ((root, t) :: out) := by
  have hfr : ∀ x, x ∈ out.map Prod.fst → x ≠ root := by
    intro x hx heq
    exact hq.inv.fresh x hx (heq ▸ List.mem_cons_self root vis)
  refine ⟨⟨?_, ?_, ?_, ?_, ?_, ?_⟩, ?_, ?_, ?_⟩
  · exact fun x hx => hq.inv.mono x (List.mem_cons_of_mem _ hx)
  · intro x
    rw [hq.inv.chr x]
    simp only [List.map_cons, List.mem_cons]
    tauto
  · simp only [List.map_cons, List.nodup_cons]
    exact ⟨fun hmem => hfr root hmem rfl, hq.inv.nodup⟩
  · intro x hx
    simp only [List.map_cons, List.mem_cons] at hx
    rcases hx with rfl | hx
    · exact hroot
    · intro hv
      exact hq.inv.fresh x hx (List.mem_cons_of_mem _ hv)
  · intro p hp
    rcases List.mem_cons.mp hp with rfl | hp
    · exact ⟨blk, hlk, hcl⟩
    · exact hq.inv.pairing p hp
  · intro p hp u hu
    rcases List.mem_cons.mp hp with rfl | hp
    · exact hq.doneIn u hu
    · exact hq.inv.closed p hp u hu
  · intro x hx
    simp only [List.map_cons, List.mem_cons] at hx
    rcases hx with rfl | hx
    · exact Relation.ReflTransGen.refl
    · obtain ⟨u, humem, hr⟩ := hq.sound x hx
      exact Relation.ReflTransGen.head ⟨blk, t, hlk, hcl, humem⟩ hr
  · simp
  · intro i hi hpos
    cases i with
    | zero => omega
    | succ j =>
      have hj : j < out.length := by
        simp only [List.length_cons] at hi
        omega
      rcases hq.parent j hj with hin | ⟨q, hqt, hmem⟩
      · refine ⟨(root, t), ?_, ?_⟩
        · rw [List.take_succ_cons]
          exact List.mem_cons_self _ _
        · rw [List.get_cons_succ]
          exact hin
      · refine ⟨q, ?_, ?_⟩
        · rw [List.take_succ_cons]
          exact List.mem_cons_of_mem _ hqt
        · rw [List.get_cons_succ]
          exact hmem

theorem loopQ_cons {bm : List (Nat × Block)} {vis : List Nat} {s : Nat} {rest : List Nat}
    {v1 v2 : List Nat} {out1 out2 : List (Nat × Terminator)}
    (hp : TravP bm vis s v1 out1) (hq : LoopQ bm v1 rest v2 out2) :
    LoopQ bm vis (s :: rest) v2 (out1 ++ out2) := by
  have hids1 : ∀ x, x ∈ out1.map Prod.fst → x ∈ v1 := fun x hx =>
    (hp.inv.chr x).mpr (Or.inr hx)
  refine ⟨⟨?_, ?_, ?_, ?_, ?_, ?_⟩, ?_, ?_, ?_⟩
  · exact fun x hx => hq.inv.mono x (hp.inv.mono x hx)
  · intro x
    rw [hq.inv.chr x, hp.inv.chr x]
    simp only [List.map_append, List.mem_append]
    tauto
  · rw [List.map_append]
    refine List.Nodup.append hp.inv.nodup hq.inv.nodup ?_
    intro a ha1 ha2
    exact hq.inv.fresh a ha2 (hids1 a ha1)
  · intro x hx
    rw [List.map_append, List.mem_append] at hx
    rcases hx with hx | hx
    · exact hp.inv.fresh x hx
    · intro hv
      exact hq.inv.fresh x hx (hp.inv.mono x hv)
  · intro p hp2
    rcases List.mem_append.mp hp2 with h | h
    · exact hp.inv.pairing p h
    · exact hq.inv.pairing p h
  · intro p hp2 u hu
    rcases List.mem_append.mp hp2 with h | h
    · exact hq.inv.mono _ (hp.inv.closed p h u hu)
    · exact hq.inv.closed p h u hu
  · intro x hx
    rw [List.map_append, List.mem_append] at hx
    rcases hx with hx | hx
    · exact ⟨s, List.mem_cons_self _ _, hp.sound x hx⟩
    · obtain ⟨u, hu2, hr⟩ := hq.sound x hx
      exact ⟨u, List.mem_cons_of_mem _ hu2, hr⟩
  · intro u hu
    rcases List.mem_cons.mp hu with rfl | hm
    · have hmem : u ∈ out1.map Prod.fst := by
        apply List.mem_of_mem_head?
        rw [hp.headRoot]
        rfl
      exact hq.inv.mono _ (hids1 u hmem)
    · exact hq.doneIn u hm
  · intro i hi
    by_cases hlt : i < out1.length
    · have h1 : ((out1 ++ out2).get ⟨i, hi⟩).1 = (out1.get ⟨i, hlt⟩).1 := by
        rw [List.get_eq_getElem, List.get_eq_getElem, List.getElem_append_left hlt]
      cases Nat.eq_zero_or_pos i with
      | inl h0 =>
        subst h0
        left
        rw [h1]
        have hhd : (out1.get ⟨0, hlt⟩).1 = s := by
          have hh := hp.headRoot
          cases out1 with
          | nil => simp at hlt
          | cons p rest1 =>
            simp only [List.map_cons, List.head?_cons, Option.some.injEq] at hh
            simpa [List.get] using hh
        rw [hhd]
        exact List.mem_cons_self _ _
      | inr hposi =>
        rcases hp.parent i hlt hposi with ⟨q, hqt, hmem⟩
        right
        refine ⟨q, ?_, ?_⟩
        · rw [List.take_append_eq_append_take]
          exact List.mem_append_left _ hqt
        · rw [h1]
          exact hmem
    · have hle : out1.length ≤ i := Nat.le_of_not_lt hlt
      have hj : i - out1.length < out2.length := by
        have h2 : i < out1.length + out2.length := by
          simpa [List.length_append] using hi
        omega
      have h1 : ((out1 ++ out2).get ⟨i, hi⟩).1 = (out2.get ⟨i - out1.length, hj⟩).1 := by
        rw [List.get_eq_getElem, List.get_eq_getElem, List.getElem_append_right hle]
      rcases hq.parent (i - out1.length) hj with hin | ⟨q, hqt, hmem⟩
      · left
        rw [h1]
        exact List.mem_cons_of_mem _ hin
      · right
        refine ⟨q, ?_, ?_⟩
        · rw [List.take_append_eq_append_take, List.take_of_length_le hle]
          exact List.mem_append_right _ hqt
        · rw [h1]
          exact hmem

theorem traverse_inv (bm : List (Nat × Block)) : ∀ fuel : Nat,
    (∀ vis root v out, root ∉ vis → traverse_from bm fuel vis root = .ok v out →
      TravP bm vis root v out) ∧
    (∀ vis l v out, succLoop bm fuel vis l = .ok v out → LoopQ bm vis l v out) := by
  intro fuel
  induction fuel with
  | zero =>
    constructor
    · intro vis root v out _ h
      exact TravResult.noConfusion h
    · intro vis l v out h
      cases l with
      | nil =>
        rw [succLoop_nil] at h
        simp only [TravResult.ok.injEq] at h
        obtain ⟨rfl, rfl⟩ := h
        exact loopQ_nil bm vis
      | cons s rest => exact TravResult.noConfusion h
  | succ fuel ih =>
    obtain ⟨iht, ihl⟩ := ih
    constructor
    · intro vis root v out hroot h
      simp only [traverse_from] at h
      cases hlk : bLookup root bm with
      | none =>
        simp only [hlk] at h
        exact TravResult.noConfusion h
      | some blk =>
        simp only [hlk] at h
        cases hcl : Terminator.from_basic_block blk with
        | none =>
          simp only [hcl] at h
          exact TravResult.noConfusion h
        | some t =>
          simp only [hcl] at h
          cases hsl : succLoop bm fuel (root :: vis) t.successors with
          | ok v1 out1 =>
            simp only [hsl, TravResult.ok.injEq] at h
            obtain ⟨rfl, rfl⟩ := h
            exact travP_step hroot hlk hcl (ihl _ _ _ _ hsl)
          | fatal =>
            simp only [hsl] at h
            exact TravResult.noConfusion h
          | outOfFuel =>
            simp only [hsl] at h
            exact TravResult.noConfusion h
    · intro vis l v out h
      cases l with
      | nil =>
        rw [succLoop_nil] at h
        simp only [TravResult.ok.injEq] at h
        obtain ⟨rfl, rfl⟩ := h
        exact loopQ_nil bm vis
      | cons s rest =>
        simp only [succLoop] at h
        by_cases hs : s ∈ vis
        · rw [if_pos hs] at h
          exact loopQ_skip hs (ihl _ _ _ _ h)
        · rw [if_neg hs] at h
          cases htf : traverse_from bm fuel vis s with
          | ok v1 out1 =>
            simp only [htf] at h
            cases hsl : succLoop bm fuel v1 rest with
            | ok v2 out2 =>
              simp only [hsl, TravResult.ok.injEq] at h
              obtain ⟨rfl, rfl⟩ := h
              exact loopQ_cons (iht _ _ _ _ hs htf) (ihl _ _ _ _ hsl)
            | fatal =>
              simp only [hsl] at h
              exact TravResult.noConfusion h
            | outOfFuel =>
              simp only [hsl] at h
              exact TravResult.noConfusion h
          | fatal =>
            simp only [htf] at h
            exact TravResult.noConfusion h
          | outOfFuel =>
            simp only [htf] at h
            exact TravResult.noConfusion h

theorem traverse_adequacy (bm : List (Nat × Block)) : ∀ fuel : Nat,
    (∀ vis root, root ∉ vis →
      1 + freshCount bm vis * (1 + maxSuccLen bm) ≤ fuel →
      traverse_from bm fuel vis root ≠ .outOfFuel) ∧
    (∀ vis l, l.length + 1 + freshCount bm vis * (1 + maxSuccLen bm) ≤ fuel →
      succLoop bm fuel vis l ≠ .outOfFuel) := by
  intro fuel
  induction fuel with
  | zero =>
    constructor
    · intro vis root _ hb
      omega
    · intro vis l hb
      omega
  | succ fuel ih =>
    obtain ⟨iht, ihl⟩ := ih
    constructor
    · intro vis root hroot hb
      simp only [traverse_from]
      cases hlk : bLookup root bm with
      | none => simp [hlk]
      | some blk =>
        simp only [hlk]
        cases hcl : Terminator.from_basic_block blk with
        | none => simp [hcl]
        | some t =>
          simp only [hcl]
          have hin : root ∈ bm.map Prod.fst := bLookup_mem_keys hlk
          have hpos : 1 ≤ freshCount bm vis := freshCount_pos bm hin hroot
          have hlt : freshCount bm (root :: vis) < freshCount bm vis :=
            freshCount_cons_lt bm hin hroot
          have hslen : t.successors.length ≤ maxSuccLen bm :=
            successors_le_max bm hlk hcl
          have hb2 : t.successors.length + 1 +
              freshCount bm (root :: vis) * (1 + maxSuccLen bm) ≤ fuel := by
            have hmul : (freshCount bm (root :: vis) + 1) * (1 + maxSuccLen bm) ≤
                freshCount bm vis * (1 + maxSuccLen bm) :=
              Nat.mul_le_mul_right _ (by omega)
            have hexp : (freshCount bm (root :: vis) + 1) * (1 + maxSuccLen bm) =
                freshCount bm (root :: vis) * (1 + maxSuccLen bm) + (1 + maxSuccLen bm) := by
              ring
            omega
          have hne := ihl (root :: vis) t.successors hb2
          cases hsl : succLoop bm fuel (root :: vis) t.successors with
          | ok v out => simp [hsl]
          | fatal => simp [hsl]
          | outOfFuel => exact absurd hsl hne
    · intro vis l hb
      cases l with
      | nil =>
        rw [succLoop_nil]
        simp
      | cons s rest =>
        simp only [succLoop]
        by_cases hs : s ∈ vis
        · rw [if_pos hs]
          apply ihl vis rest
          simp only [List.length_cons] at hb
          omega
        · rw [if_neg hs]
          have hbt : 1 + freshCount bm vis * (1 + maxSuccLen bm) ≤ fuel := by
            simp only [List.length_cons] at hb
            omega
          have hnet := iht vis s hs hbt
          cases htf : traverse_from bm fuel vis s with
          | ok v1 out1 =>
            have hmono : freshCount bm v1 ≤ freshCount bm vis :=
              freshCount_mono bm
                (((traverse_inv bm fuel).1 vis s v1 out1 hs htf).inv.mono)
            have hner := ihl v1 rest (by
              simp only [List.length_cons] at hb
              have hmul : freshCount bm v1 * (1 + maxSuccLen bm) ≤
                  freshCount bm vis * (1 + maxSuccLen bm) :=
                Nat.mul_le_mul_right _ hmono
              omega)
            cases hsl : succLoop bm fuel v1 rest with
            | ok v2 out2 => simp [htf, hsl]
            | fatal => simp [htf, hsl]
            | outOfFuel => exact absurd hsl hner
          | fatal => simp [htf]
          | outOfFuel => exact absurd htf hnet

/-! ## Claim theorems: traversal -/

/-- **C1 counterexample**: on the spec's own diamond (entry 1 branches to
2 and 3, both branch to 4), the traversal visits `1, 2, 4, 3` — block 4
is visited *before* block 3, yet 4 is a successor of 3, so "a block is
visited before any of its successors" fails (as it must on any join). -/
theorem C1_preorder_counterexample :
    PetSpirv.traverse (block_map_of diamondBlocks) diamondBlocks =
      .ok [3, 4, 2, 1]
        [(1, .BranchConditional (some 4) 2 3), (2, .Branch 4), (4, .End), (3, .Branch 4)] ∧
    ¬ visitsBeforeSuccessors
        [(1, .BranchConditional (some 4) 2 3), (2, .Branch 4), (4, .End), (3, .Branch 4)] := by
  constructor
  · decide
  · intro hvb
    have h := hvb 3 2 (by decide) (by decide) (by decide)
    omega

/-- **C1 amended**: `traverse` visits exactly the blocks reachable from
the function's first block, exactly once each (no revisits on cycles or
joins), never runs out of recursion bound, is a no-op on an empty
function, calls the visitor with each block's id and its classified
terminator, visits the entry first, and visits every non-entry block
after some earlier-visited block of which it is a successor (depth-first
pre-order of the traversal tree; an already-visited successor may precede
its predecessor, as the counterexample forces). -/
theorem C1_traverse_amended (blocks : List Block) :
    PetSpirv.traverse (block_map_of blocks) blocks ≠ .outOfFuel ∧
    (blocks = [] → PetSpirv.traverse (block_map_of blocks) blocks = .ok [] []) ∧
    (∀ v out, PetSpirv.traverse (block_map_of blocks) blocks = .ok v out →
      (out.map Prod.fst).Nodup ∧
      (∀ p, p ∈ out → ∃ blk, bLookup p.1 (block_map_of blocks) = some blk ∧
        Terminator.from_basic_block blk = some p.2) ∧
      (∀ eid, entryIdOf blocks = some eid →
        (out.map Prod.fst).head? = some eid ∧
        (∀ x, x ∈ out.map Prod.fst ↔ Reach (block_map_of blocks) eid x)) ∧
      dfsParent out) := by
  refine ⟨?_, ?_, ?_⟩
  · simp only [PetSpirv.traverse]
    cases hh : blocks.head? with
    | none => simp [hh]
    | some b =>
      simp only [hh]
      cases hl : b.label with
      | none => simp [hl]
      | some lbl =>
        simp only [hl]
        cases hr : lbl.result_id with
        | none => simp [hr]
        | some id =>
          simp only [hr]
          apply (traverse_adequacy (block_map_of blocks) (totalFuel (block_map_of blocks))).1
          · exact List.not_mem_nil id
          · have h1 : freshCount (block_map_of blocks) [] ≤ (block_map_of blocks).length :=
              freshCount_nil_le _
            have h2 : freshCount (block_map_of blocks) [] *
                (1 + maxSuccLen (block_map_of blocks)) ≤
                (block_map_of blocks).length * (1 + maxSuccLen (block_map_of blocks)) :=
              Nat.mul_le_mul_right _ h1
            rw [totalFuel]
            omega
  · intro he
    subst he
    rfl
  · intro v out h
    simp only [PetSpirv.traverse] at h
    cases hh : blocks.head? with
    | none =>
      simp only [hh, TravResult.ok.injEq] at h
      obtain ⟨rfl, rfl⟩ := h
      refine ⟨by simp, by simp, ?_, ?_⟩
      · intro eid heid
        simp [entryIdOf, hh] at heid
      · intro i hi
        simp at hi
    | some b =>
      simp only [hh] at h
      cases hl : b.label with
      | none =>
        simp only [hl] at h
        exact TravResult.noConfusion h
      | some lbl =>
        simp only [hl] at h
        cases hr : lbl.result_id with
        | none =>
          simp only [hr] at h
          exact TravResult.noConfusion h
        | some id =>
          simp only [hr] at h
          have hp := (traverse_inv (block_map_of blocks) (totalFuel (block_map_of blocks))).1
            [] id v out (List.not_mem_nil id) h
          have hids : ∀ x, x ∈ out.map Prod.fst ↔ x ∈ v := by
            intro x
            rw [hp.inv.chr x]
            simp
          refine ⟨hp.inv.nodup, hp.inv.pairing, ?_, hp.parent⟩
          intro eid heid
          simp only [entryIdOf, hh, Option.some_bind, blockId, hl, hr,
            Option.some.injEq] at heid
          subst heid
          refine ⟨hp.headRoot, ?_⟩
          intro x
          constructor
          · exact fun hx => hp.sound x hx
          · intro hr2
            induction hr2 with
            | refl =>
              apply List.mem_of_mem_head?
              rw [hp.headRoot]
              rfl
            | tail hab hbc ih2 =>
              rename_i b1 c1
              obtain ⟨blk1, t1, hlk1, hcl1, hsucc⟩ := hbc
              obtain ⟨p, hpmem, hfst⟩ := List.mem_map.mp ih2
              obtain ⟨blk2, hlk2, hcl2⟩ := hp.inv.pairing p hpmem
              rw [hfst] at hlk2
              rw [hlk1] at hlk2
              injection hlk2 with hblk
              subst hblk
              rw [hcl1] at hcl2
              injection hcl2 with ht
              have hsucc2 : c1 ∈ p.2.successors := by
                rw [← ht]
                exact hsucc
              exact (hids c1).mpr (hp.inv.closed p hpmem c1 hsucc2)

/-- Witness for **C1 amended** on a concrete two-block function. -/
theorem C1_traverse_amended_witness :
    ∃ v out, PetSpirv.traverse (block_map_of lineBlocks) lineBlocks = .ok v out ∧
      (out.map Prod.fst).Nodup ∧ dfsParent out := by
  refine ⟨[2, 1], [(1, .Branch 2), (2, .End)], by decide, ?_, ?_⟩
  · exact ((C1_traverse_amended lineBlocks).2.2 [2, 1]
      [(1, .Branch 2), (2, .End)] (by decide)).1
  · exact ((C1_traverse_amended lineBlocks).2.2 [2, 1]
      [(1, .Branch 2), (2, .End)] (by decide)).2.2.2
